import Mathlib

/-!
Verification of the `envious` environment-variable deserializer.

The Rust sources (src/value.rs, src/config.rs, src/error.rs) are shallowly
embedded below: the `Value` tree and `Value::insert_at`, the tree construction
of `Config::create_parser`, the key normalization of `Config::build_from_iter`,
the case coercion of `Config::maybe_coerce_case`, and the decoding adapter
methods of `impl Deserializer for Parser`.  Serde visitor calls are modelled by
the explicit `Visit` outcome type: each `deserialize_*` request either raises
an adapter-level `EnvDeserializationError` or hands a visit to the external
visitor.  Rust panics (out-of-bounds indexing, `unreachable!`) are modelled by
`Option`: `none` means the Rust code would panic.
-/

namespace Envious

/-- Embeds `enum Value` from src/value.rs: `Simple(String)` is a leaf holding a
raw string, `Map(Vec<(String, Value)>)` is a branch of named children in
insertion order. -/
inductive Value where
  | Simple (s : String)
  | Map (entries : List (String × Value))

mutual

/-- Decidable equality for `Value` (the source derives `PartialEq`). -/
def Value.decEq : (a b : Value) → Decidable (a = b)
  | .Simple a, .Simple b =>
    match String.decEq a b with
    | isTrue h => isTrue (by rw [h])
    | isFalse h => isFalse (by intro hh; cases hh; exact h rfl)
  | .Simple _, .Map _ => isFalse (by intro h; cases h)
  | .Map _, .Simple _ => isFalse (by intro h; cases h)
  | .Map as, .Map bs =>
    match Value.decEqList as bs with
    | isTrue h => isTrue (by rw [h])
    | isFalse h => isFalse (by intro hh; cases hh; exact h rfl)

/-- Decidable equality for child-entry lists of `Value`. -/
def Value.decEqList : (as bs : List (String × Value)) → Decidable (as = bs)
  | [], [] => isTrue rfl
  | [], _ :: _ => isFalse (by intro h; cases h)
  | _ :: _, [] => isFalse (by intro h; cases h)
  | (k1, v1) :: r1, (k2, v2) :: r2 =>
    match String.decEq k1 k2, Value.decEq v1 v2, Value.decEqList r1 r2 with
    | isTrue h1, isTrue h2, isTrue h3 => isTrue (by rw [h1, h2, h3])
    | isFalse h1, _, _ => isFalse (by intro hh; cases hh; exact h1 rfl)
    | _, isFalse h2, _ => isFalse (by intro hh; cases hh; exact h2 rfl)
    | _, _, isFalse h3 => isFalse (by intro hh; cases hh; exact h3 rfl)

end

instance : DecidableEq Value := Value.decEq

instance {ε α : Type} [DecidableEq ε] [DecidableEq α] : DecidableEq (Except ε α) :=
  fun a b =>
  match a, b with
  | .ok x, .ok y =>
    match decEq x y with
    | isTrue h => isTrue (by rw [h])
    | isFalse h => isFalse (by intro hh; cases hh; exact h rfl)
  | .error x, .error y =>
    match decEq x y with
    | isTrue h => isTrue (by rw [h])
    | isFalse h => isFalse (by intro hh; cases hh; exact h rfl)
  | .ok _, .error _ => isFalse (by intro h; cases h)
  | .error _, .ok _ => isFalse (by intro h; cases h)

/-- Embeds `enum EnvDeserializationError` from src/error.rs. -/
inductive EnvDeserializationError where
  | GenericDeserialization (msg : String)
  | UnsupportedValue
  | InvalidNestedValues
  | InvalidEnvNesting (path : List String)
deriving DecidableEq

/-- First entry of the list whose key equals `k`, as found by
`values.iter_mut().find(|(key, _)| key == path[0])`. -/
def lookupFirst (cs : List (String × Value)) (k : String) : Option Value :=
  match cs with
  | [] => none
  | (k2, v) :: rest => if k2 = k then some v else lookupFirst rest k

/-- Replace the value of the first entry whose key is `k` (the in-place update
of the node found by `iter_mut().find`). -/
def setFirst (cs : List (String × Value)) (k : String) (nv : Value) :
    List (String × Value) :=
  match cs with
  | [] => []
  | (k2, v) :: rest =>
    if k2 = k then (k2, nv) :: rest else (k2, v) :: setFirst rest k nv

/-- Embeds `Value::insert_at` from src/value.rs.  `none` models a Rust panic
(indexing `path[0]` on an empty path); `some (Except.error p)` models
`Err(InvalidEnvNesting(p))`; `some (Except.ok t)` is the updated tree.
The source's inner `Self::Simple` arm under `path.len() <= 1` is unreachable
there, because `val` is only ever taken from a `Map` arm or freshly created as
a `Map`. -/
def Value.insert_at : Value → List String → Value → Option (Except (List String) Value)
  | Value.Simple _, path, _ => some (Except.error path)
  | Value.Map _, [], _ => none
  | Value.Map cs, p0 :: rest, value =>
    match lookupFirst cs p0 with
    | some (Value.Simple _) => some (Except.error (p0 :: rest))
    | some (Value.Map gcs) =>
      if 1 < rest.length then
        match Value.insert_at (Value.Map gcs) rest value with
        | some (Except.ok child) => some (Except.ok (Value.Map (setFirst cs p0 child)))
        | some (Except.error e) => some (Except.error e)
        | none => none
      else
        match rest with
        | [] => none
        | r0 :: _ =>
          some (Except.ok (Value.Map (setFirst cs p0 (Value.Map (gcs ++ [(r0, value)])))))
    | none =>
      if 1 < rest.length then
        match Value.insert_at (Value.Map []) rest value with
        | some (Except.ok child) => some (Except.ok (Value.Map (cs ++ [(p0, child)])))
        | some (Except.error e) => some (Except.error e)
        | none => none
      else
        match rest with
        | [] => none
        | r0 :: _ =>
          some (Except.ok (Value.Map (cs ++ [(p0, Value.Map [(r0, value)])])))

/-- Splitter worker: scans `cs` left to right emitting a piece whenever the
separator occurs (leftmost, non-overlapping), as Rust's `str::split` does for a
non-empty pattern.  `fuel` only bounds the recursion; with `fuel = cs.length`
it is never exhausted. -/
def splitAux (sep : List Char) : Nat → List Char → List Char → List String
  | 0, cur, _ => [String.mk cur.reverse]
  | _ + 1, cur, [] => [String.mk cur.reverse]
  | fuel + 1, cur, c :: rest =>
    if sep.isPrefixOf (c :: rest) then
      String.mk cur.reverse :: splitAux sep fuel [] ((c :: rest).drop sep.length)
    else
      splitAux sep fuel (c :: cur) rest

/-- Embeds Rust's `key.split(separator)` (src/config.rs `create_parser`).
For an empty pattern Rust yields an empty piece, each character, and a final
empty piece. -/
def splitSep (sep s : String) : List String :=
  match sep.data with
  | [] => "" :: (s.data.map fun c => String.mk [c]) ++ [""]
  | c :: cs => splitAux (c :: cs) s.data.length [] s.data

/-- Embeds the loop of `Config::create_parser` (src/config.rs): single-segment
keys are pushed directly onto the root branch, longer paths go through
`Value::insert_at`.  `none` models a panic: the `unreachable!()` arm, or a
panic inside `insert_at`. -/
def create_tree_go (sep : String) : Value → List (String × Value) →
    Option (Except (List String) Value)
  | base, [] => some (Except.ok base)
  | base, (key, value) :: rest =>
    let path := splitSep sep key
    if path.length = 1 then
      match base with
      | Value.Map cs => create_tree_go sep (Value.Map (cs ++ [(key, value)])) rest
      | Value.Simple _ => none
    else
      match base.insert_at path value with
      | some (Except.ok base2) => create_tree_go sep base2 rest
      | some (Except.error e) => some (Except.error e)
      | none => none

/-- Embeds `Config::create_parser` (src/config.rs): builds the value tree from
the already-normalized `(key, value)` pairs, starting from an empty root
branch.  The wrapped `Parser` only pairs this tree with the borrowed config,
which the request functions below take as an explicit argument. -/
def create_tree (sep : String) (pairs : List (String × Value)) :
    Option (Except (List String) Value) :=
  create_tree_go sep (Value.Map []) pairs

/-- Rust `u8::make_ascii_lowercase` on one character: `A`..`Z` gain 32,
everything else is unchanged. -/
def asciiLowerChar (c : Char) : Char :=
  if 'A' ≤ c ∧ c ≤ 'Z' then Char.ofNat (c.toNat + 32) else c

/-- Rust `str::make_ascii_lowercase` / `to_ascii_lowercase`. -/
def asciiLowercase (s : String) : String :=
  String.mk (s.data.map asciiLowerChar)

/-- Rust `str::eq_ignore_ascii_case`: equality after ASCII lowercasing both
sides (non-ASCII characters are compared verbatim). -/
def eqIgnoreAsciiCase (a b : String) : Bool :=
  a.data.map asciiLowerChar == b.data.map asciiLowerChar

/-- Rust `str::strip_prefix`: `some` of the remainder when `p` is a prefix of
`s`, otherwise `none`. -/
def dropPre (s p : String) : Option String :=
  if p.data.isPrefixOf s.data then some (String.mk (s.data.drop p.data.length))
  else none

/-- Rust `FromStr` for an unsigned integer type whose excluded upper bound is
`bound` (`2^32` for `u32`, `2^64` for 64-bit `usize`): an optional `+` sign
followed by a nonempty run of ASCII digits, rejecting empty input, non-digit
characters, and values reaching `bound`.  The error strings are the `Display`
messages of Rust's `ParseIntError`. -/
def parse_uint (bound : Nat) (s : String) : Except String Nat :=
  match s.data with
  | [] => Except.error "cannot parse integer from empty string"
  | c :: rest =>
    let ds := if c = '+' then rest else c :: rest
    if ds = [] then Except.error "invalid digit found in string"
    else if ds.all Char.isDigit then
      let n := ds.foldl (fun acc d => acc * 10 + (d.toNat - 48)) 0
      if n < bound then Except.ok n
      else Except.error "number too large to fit in target type"
    else Except.error "invalid digit found in string"

/-- Rust `u32::from_str`. -/
def parse_u32 (s : String) : Except String Nat := parse_uint (2 ^ 32) s

/-- Rust `usize::from_str` on the usual 64-bit target. -/
def parse_usize (s : String) : Except String Nat := parse_uint (2 ^ 64) s

/-- Rust `bool::from_str`: exactly `true` or `false`; the error string is the
`Display` message of `ParseBoolError`. -/
def parse_bool (s : String) : Except String Bool :=
  if s = "true" then Except.ok true
  else if s = "false" then Except.ok false
  else Except.error "provided string was not `true` or `false`"

/-- Embeds `struct Config` from src/config.rs, restricted to the four fields
the core consumes (`pfx` embeds the `prefix` field). -/
structure Config where
  pfx : Option String
  case_sensitive : Bool
  separator : String
  ordered_arrays : Bool

/-- `Config::new()`: no prefix, case-insensitive, separator `__`, sorted
arrays. -/
def Config.new : Config :=
  { pfx := none, case_sensitive := false, separator := "__", ordered_arrays := true }

/-- Embeds the key-normalization `filter_map` of `Config::build_from_iter`
(src/config.rs): in case-insensitive mode the key is ASCII-lowercased first;
then, when a prefix is configured, it is stripped (lowercased first in
case-insensitive mode) and pairs without it are discarded. -/
def build_pairs (cfg : Config) (pairs : List (String × String)) :
    List (String × Value) :=
  pairs.filterMap fun kv =>
    let key := if cfg.case_sensitive then kv.1 else asciiLowercase kv.1
    let value := Value.Simple kv.2
    match cfg.pfx with
    | some p =>
      let p2 := if cfg.case_sensitive then p else asciiLowercase p
      match dropPre key p2 with
      | some stripped => some (stripped, value)
      | none => none
    | none => some (key, value)

/-- Embeds `Config::maybe_coerce_case` (src/config.rs): when case-insensitive,
each key matching some expected name under `eq_ignore_ascii_case` is replaced
by the first such name; otherwise keys pass through unchanged. -/
def maybe_coerce_case (cfg : Config) (values : List (String × Value))
    (corrected_cases : List String) : List (String × Value) :=
  values.map fun kv =>
    if !cfg.case_sensitive then
      match corrected_cases.find? (fun item => eqIgnoreAsciiCase item kv.1) with
      | some ck => (ck, kv.2)
      | none => kv
    else kv

/-- One decoding-protocol step of the adapter, made explicit: either the
adapter raises an error before involving the visitor, or it hands the visitor
one of these calls.  Child nodes are carried as plain `Value`s; the source
wraps each in a fresh `Parser` sharing the same config. -/
inductive Visit where
  | vString (s : String)
  | vBool (b : Bool)
  | vNat (n : Nat)
  | vMap (entries : List (String × Value))
  | vSeq (elems : List Value)
  | vSome (v : Value)
  | vNewtype (v : Value)
  | vEnumString (s : String)
  | vEnumMap (entries : List (String × Value))
deriving DecidableEq

/-- Embeds the `forward_to_deserializer!` macro arms of src/value.rs: on a
leaf, parse the raw string and delegate the parsed value; on a parse error,
`GenericDeserialization` with the quoted-value message; on a branch,
`InvalidNestedValues`. -/
def forward_to_deserializer {α : Type} (parse : String → Except String α)
    (inj : α → Visit) : Value → Except EnvDeserializationError Visit
  | Value.Simple s =>
    match parse s with
    | Except.ok a => Except.ok (inj a)
    | Except.error e =>
      Except.error (EnvDeserializationError.GenericDeserialization
        ("\x27" ++ s ++ "\x27 could not be deserialized due to: " ++ e))
  | Value.Map _ => Except.error EnvDeserializationError.InvalidNestedValues

/-- `Parser::deserialize_bool` (one arm of the macro invocation). -/
def deserialize_bool : Value → Except EnvDeserializationError Visit :=
  forward_to_deserializer parse_bool Visit.vBool

/-- `Parser::deserialize_u32` (one arm of the macro invocation). -/
def deserialize_u32 : Value → Except EnvDeserializationError Visit :=
  forward_to_deserializer parse_u32 Visit.vNat

/-- `Parser::deserialize_map` (src/value.rs): a leaf is `UnsupportedValue`; a
branch exposes its children, in their current order and without any key
coercion, as the visited map. -/
def deserialize_map : Value → Except EnvDeserializationError Visit
  | Value.Simple _ => Except.error EnvDeserializationError.UnsupportedValue
  | Value.Map cs => Except.ok (Visit.vMap cs)

/-- `Parser::deserialize_any` (src/value.rs): a leaf delegates to the string
deserializer's self-describing path (`visit_string` with the raw value); a
branch is handled as a map request. -/
def deserialize_any : Value → Except EnvDeserializationError Visit
  | Value.Simple s => Except.ok (Visit.vString s)
  | Value.Map cs => deserialize_map (Value.Map cs)

/-- `str` requests reach `deserialize_any` through the
`serde::forward_to_deserialize_any!` block of src/value.rs. -/
def deserialize_str (v : Value) : Except EnvDeserializationError Visit :=
  deserialize_any v

/-- `string` requests, forwarded to `deserialize_any` likewise. -/
def deserialize_string (v : Value) : Except EnvDeserializationError Visit :=
  deserialize_any v

/-- `bytes` requests, forwarded to `deserialize_any` likewise. -/
def deserialize_bytes (v : Value) : Except EnvDeserializationError Visit :=
  deserialize_any v

/-- `char` requests, forwarded to `deserialize_any` likewise. -/
def deserialize_char (v : Value) : Except EnvDeserializationError Visit :=
  deserialize_any v

/-- `identifier` requests, forwarded to `deserialize_any` likewise. -/
def deserialize_identifier (v : Value) : Except EnvDeserializationError Visit :=
  deserialize_any v

/-- `Parser::deserialize_option`: always `visit_some(self)`. -/
def deserialize_option (v : Value) : Except EnvDeserializationError Visit :=
  Except.ok (Visit.vSome v)

/-- `Parser::deserialize_newtype_struct`: always `visit_newtype_struct(self)`. -/
def deserialize_newtype_struct (v : Value) : Except EnvDeserializationError Visit :=
  Except.ok (Visit.vNewtype v)

/-- `Parser::deserialize_struct` (src/value.rs): a branch gets its keys
coerced against the expected field list, then proceeds as a map request; a
leaf falls through to `deserialize_map` unchanged. -/
def deserialize_struct (cfg : Config) (fields : List String) :
    Value → Except EnvDeserializationError Visit
  | Value.Simple s => deserialize_map (Value.Simple s)
  | Value.Map cs => deserialize_map (Value.Map (maybe_coerce_case cfg cs fields))

/-- `Parser::deserialize_enum` (src/value.rs): a leaf is decoded as a
unit-variant name through the string enum path; a branch gets its keys coerced
against the variant list and is visited as an enum map. -/
def deserialize_enum (cfg : Config) (variants : List String) :
    Value → Except EnvDeserializationError Visit
  | Value.Simple s => Except.ok (Visit.vEnumString s)
  | Value.Map cs => Except.ok (Visit.vEnumMap (maybe_coerce_case cfg cs variants))

/-- The sorting token computed in `Parser::deserialize_seq` (src/value.rs):
the maximal leading run of ASCII digits parsed with `usize::from_str` and made
optional with `.ok()`, paired with the remaining suffix. -/
def sort_token (key : String) : Option Nat × String :=
  let num := String.mk (key.data.takeWhile Char.isDigit)
  ((parse_usize num).toOption, String.mk (key.data.dropWhile Char.isDigit))

/-- Rust `Option<usize>` order: `None` is below every `Some`, `Some`s compare
numerically. -/
def optNatLt : Option Nat → Option Nat → Bool
  | none, none => false
  | none, some _ => true
  | some _, none => false
  | some a, some b => a < b

/-- Lexicographic comparison of char lists, the order Rust's `String` `Ord`
induces (byte order on UTF-8 agrees with code-point order). -/
def charsLt : List Char → List Char → Bool
  | [], [] => false
  | [], _ :: _ => true
  | _ :: _, [] => false
  | a :: as, b :: bs => a < b || (a = b && charsLt as bs)

/-- Rust `Ord` for the sorting token `(Option<usize>, String)`. -/
def tokenLt (a b : Option Nat × String) : Bool :=
  optNatLt a.1 b.1 || (a.1 = b.1 && charsLt a.2.data b.2.data)

/-- One `BTreeMap::insert` into a sorted association list: an equal key
replaces the stored value, as `collect::<BTreeMap<_, _>>` does for duplicate
keys. -/
def btreeInsert (k : Option Nat × String) (v : Value) :
    List ((Option Nat × String) × Value) → List ((Option Nat × String) × Value)
  | [] => [(k, v)]
  | (k2, v2) :: rest =>
    if tokenLt k k2 then (k, v) :: (k2, v2) :: rest
    else if k = k2 then (k2, v) :: rest
    else (k2, v2) :: btreeInsert k v rest

/-- The `BTreeMap` built in `Parser::deserialize_seq`, followed by
`into_values()`: children keyed by sorting token, traversed in token order. -/
def btreeValues (cs : List (String × Value)) : List Value :=
  ((cs.map fun kv => (sort_token kv.1, kv.2)).foldl
    (fun m kv => btreeInsert kv.1 kv.2 m) []).map Prod.snd

set_option linter.unusedVariables false

/-- `Parser::deserialize_seq` (src/value.rs): a leaf becomes a one-element
sequence of itself; a branch's children are re-keyed by sorting token through
a `BTreeMap` and visited in token order.  The method receives the config
(through `self`) but never consults `ordered_arrays`; the parameter is kept to
record that the outcome is independent of it. -/
def deserialize_seq (cfg : Config) : Value → Except EnvDeserializationError Visit
  | Value.Simple s => Except.ok (Visit.vSeq [Value.Simple s])
  | Value.Map cs => Except.ok (Visit.vSeq (btreeValues cs))

/-- The node reached from `v` by following the path `q`, resolving each
segment with the same first-match child lookup that `Value::insert_at`
performs. -/
def nodeAt : Value → List String → Option Value
  | v, [] => some v
  | Value.Simple _, _ :: _ => none
  | Value.Map cs, k :: rest =>
    match lookupFirst cs k with
    | some c => nodeAt c rest
    | none => none

/-- The Branch-key uniqueness invariant claimed by the spec: every branch of
the tree has pairwise-distinct child keys. -/
inductive AllUnique : Value → Prop where
  | simple (s : String) : AllUnique (Value.Simple s)
  | map (cs : List (String × Value)) :
      (cs.map Prod.fst).Nodup →
      (∀ kv ∈ cs, AllUnique kv.2) →
      AllUnique (Value.Map cs)

/-! ## Claim theorems -/

/-- `splitAux` always yields at least one piece. -/
theorem splitAux_ne_nil (sep : List Char) :
    ∀ (fuel : Nat) (cur cs : List Char), splitAux sep fuel cur cs ≠ [] := by
  intro fuel
  induction fuel with
  | zero => intro cur cs; simp [splitAux]
  | succ n ih =>
    intro cur cs
    cases cs with
    | nil => simp [splitAux]
    | cons c rest =>
      simp only [splitAux]
      split
      · simp
      · exact ih _ _

/-- Splitting a key always yields at least one segment (Rust's `str::split`
never yields an empty iterator). -/
theorem splitSep_ne_nil (sep s : String) : splitSep sep s ≠ [] := by
  unfold splitSep
  cases h : sep.data with
  | nil => simp
  | cons c cs => exact splitAux_ne_nil _ _ _ _

/-- `Value::insert_at` never panics on a path of at least two segments: both
`path[0]` indexing sites are in bounds all the way down. -/
theorem insert_at_isSome :
    ∀ (path : List String) (t value : Value), 2 ≤ path.length →
      Value.insert_at t path value ≠ none := by
  intro path
  induction path with
  | nil => intro t value h; simp at h
  | cons p0 rest ih =>
    intro t value h
    cases t with
    | Simple s => simp [Value.insert_at]
    | Map cs =>
      simp only [Value.insert_at]
      cases hlk : lookupFirst cs p0 with
      | none =>
        by_cases hr : 1 < rest.length
        · simp only [if_pos hr]
          cases hrec : Value.insert_at (Value.Map []) rest value with
          | none => exact absurd hrec (ih _ value (by omega))
          | some r => cases r <;> simp
        · simp only [if_neg hr]
          cases rest with
          | nil => simp at h
          | cons r0 rr => simp
      | some c =>
        cases c with
        | Simple s2 => simp
        | Map gcs =>
          by_cases hr : 1 < rest.length
          · simp only [if_pos hr]
            cases hrec : Value.insert_at (Value.Map gcs) rest value with
            | none => exact absurd hrec (ih _ value (by omega))
            | some r => cases r <;> simp
          · simp only [if_neg hr]
            cases rest with
            | nil => simp at h
            | cons r0 rr => simp

/-- A successful `Value::insert_at` on a branch returns a branch: the root
node variant is preserved. -/
theorem insert_at_map_shape :
    ∀ (path : List String) (cs : List (String × Value)) (value t2 : Value),
      Value.insert_at (Value.Map cs) path value = some (Except.ok t2) →
      ∃ ds, t2 = Value.Map ds := by
  intro path cs value t2 h
  cases path with
  | nil => simp [Value.insert_at] at h
  | cons p0 rest =>
    simp only [Value.insert_at] at h
    split at h
    · simp at h
    · split at h
      · split at h
        · injection h with h2; injection h2 with h3; exact ⟨_, h3.symm⟩
        · simp at h
        · exact Option.noConfusion h
      · split at h
        · exact Option.noConfusion h
        · injection h with h2; injection h2 with h3; exact ⟨_, h3.symm⟩
    · split at h
      · split at h
        · injection h with h2; injection h2 with h3; exact ⟨_, h3.symm⟩
        · simp at h
        · exact Option.noConfusion h
      · split at h
        · exact Option.noConfusion h
        · injection h with h2; injection h2 with h3; exact ⟨_, h3.symm⟩

/-- The `create_parser` loop, started on a branch, neither panics nor ever
turns the root into a leaf. -/
theorem create_tree_go_total (sep : String) :
    ∀ (pairs : List (String × Value)) (cs : List (String × Value)),
      create_tree_go sep (Value.Map cs) pairs ≠ none ∧
      (∀ t2, create_tree_go sep (Value.Map cs) pairs = some (Except.ok t2) →
        ∃ ds, t2 = Value.Map ds) := by
  intro pairs
  induction pairs with
  | nil =>
    intro cs
    refine ⟨by simp [create_tree_go], ?_⟩
    intro t2 h
    simp only [create_tree_go] at h
    injection h with h2
    injection h2 with h3
    exact ⟨cs, h3.symm⟩
  | cons kv rest ih =>
    intro cs
    obtain ⟨key, value⟩ := kv
    by_cases hl : (splitSep sep key).length = 1
    · have hgo : create_tree_go sep (Value.Map cs) ((key, value) :: rest)
          = create_tree_go sep (Value.Map (cs ++ [(key, value)])) rest := by
        simp [create_tree_go, hl]
      rw [hgo]
      exact ih _
    · have hlen : 2 ≤ (splitSep sep key).length := by
        have h1 : splitSep sep key ≠ [] := splitSep_ne_nil sep key
        have h2 : (splitSep sep key).length ≠ 0 := by
          intro h0; exact h1 (List.length_eq_zero.mp h0)
        omega
      cases hres : Value.insert_at (Value.Map cs) (splitSep sep key) value with
      | none => exact absurd hres (insert_at_isSome _ _ _ hlen)
      | some r =>
        cases r with
        | ok base2 =>
          obtain ⟨ds, hds⟩ := insert_at_map_shape _ _ _ _ hres
          subst hds
          have hgo : create_tree_go sep (Value.Map cs) ((key, value) :: rest)
              = create_tree_go sep (Value.Map ds) rest := by
            simp [create_tree_go, hl, hres]
          rw [hgo]
          exact ih _
        | error e =>
          have hgo : create_tree_go sep (Value.Map cs) ((key, value) :: rest)
              = some (Except.error e) := by
            simp [create_tree_go, hl, hres]
          rw [hgo]
          exact ⟨by simp, by intro t2 h; injection h with h2; cases h2⟩

/-- C10: tree construction never panics.  Splitting always yields at least one
segment, so `insert_at` is only invoked on paths of two or more segments; under
that precondition every index taken inside `insert_at` is in bounds (the
result is never `none`, the model of a panic); `create_tree` itself never hits
the `unreachable!()` arm; and a successful build keeps the root a branch. -/
theorem c10_no_panic (sep key : String) (pairs : List (String × Value))
    (path : List String) (t value : Value) (h : 2 ≤ path.length) :
    splitSep sep key ≠ [] ∧
    Value.insert_at t path value ≠ none ∧
    create_tree sep pairs ≠ none ∧
    (∀ t2, create_tree sep pairs = some (Except.ok t2) → ∃ ds, t2 = Value.Map ds) :=
  ⟨splitSep_ne_nil sep key, insert_at_isSome path t value h,
    (create_tree_go_total sep pairs []).1, (create_tree_go_total sep pairs []).2⟩

/-- C10 (witness): `c10_no_panic` at a concrete separator, key, pair list, and
two-segment path. -/
theorem c10_witness :
    2 ≤ (["a", "b"] : List String).length ∧
    (splitSep "__" "a__b" ≠ [] ∧
    Value.insert_at (Value.Map []) ["a", "b"] (Value.Simple "x") ≠ none ∧
    create_tree "__" [("a__b", Value.Simple "x")] ≠ none ∧
    (∀ t2, create_tree "__" [("a__b", Value.Simple "x")] = some (Except.ok t2) →
      ∃ ds, t2 = Value.Map ds)) :=
  ⟨by decide,
    c10_no_panic "__" "a__b" [("a__b", Value.Simple "x")] ["a", "b"]
      (Value.Map []) (Value.Simple "x") (by decide)⟩

/-- C1 (counterexample): inserting `("test","true")` first does fail with
`InvalidEnvNesting ["test", "bar"]`, but processing `("test__bar","true")`
first does not produce that failure at all, so the failure is not independent
of insertion order. -/
theorem c1_counterexample :
    create_tree "__" [("test", Value.Simple "true"), ("test__bar", Value.Simple "true")]
      = some (Except.error ["test", "bar"]) ∧
    create_tree "__" [("test__bar", Value.Simple "true"), ("test", Value.Simple "true")]
      ≠ some (Except.error ["test", "bar"]) :=
  ⟨rfl, by decide⟩

/-- C1 (amended): with `("test","true")` processed first, tree construction
fails with `InvalidEnvNesting` carrying the remaining path `["test", "bar"]`
(ending in the `bar` suffix); with `("test__bar","true")` processed first it
succeeds, leaving a root branch with a `test` branch child and a duplicate
`test` leaf child — insertion order changes the outcome. -/
theorem c1_insert_order_outcomes :
    create_tree "__" [("test", Value.Simple "true"), ("test__bar", Value.Simple "true")]
      = some (Except.error ["test", "bar"]) ∧
    create_tree "__" [("test__bar", Value.Simple "true"), ("test", Value.Simple "true")]
      = some (Except.ok (Value.Map [("test", Value.Map [("bar", Value.Simple "true")]),
          ("test", Value.Simple "true")])) :=
  ⟨rfl, rfl⟩

/-- C2: `deserialize_seq` never reads `ordered_arrays`; with the flag disabled
the children keyed `1 → 125`, `0 → 200`, `4 → 300` still come out sorted by
token as `[200, 125, 300]`, not in raw insertion order `[125, 200, 300]`, and
the outcome is the same for every config. -/
theorem c2_ordering_flag_ignored :
    deserialize_seq { Config.new with ordered_arrays := false }
        (Value.Map [("1", Value.Simple "125"), ("0", Value.Simple "200"),
          ("4", Value.Simple "300")])
      = Except.ok (Visit.vSeq [Value.Simple "200", Value.Simple "125", Value.Simple "300"]) ∧
    [Value.Simple "200", Value.Simple "125", Value.Simple "300"]
      ≠ [Value.Simple "125", Value.Simple "200", Value.Simple "300"] ∧
    ∀ (cfg cfg2 : Config) (v : Value), deserialize_seq cfg v = deserialize_seq cfg2 v :=
  ⟨rfl, by decide, fun _ _ v => by cases v <;> rfl⟩

/-- C3: three children with equal sorting tokens (the crate's own
`simple_sequence` test input, ordering enabled by default) collapse in the
`BTreeMap` to the single last element `[300]` — not one sequence element per
child. -/
theorem c3_equal_tokens_collapse :
    deserialize_seq Config.new
        (Value.Map [("", Value.Simple "125"), ("", Value.Simple "200"),
          ("", Value.Simple "300")])
      = Except.ok (Visit.vSeq [Value.Simple "300"]) ∧
    Visit.vSeq [Value.Simple "300"]
      ≠ Visit.vSeq [Value.Simple "125", Value.Simple "200", Value.Simple "300"] :=
  ⟨rfl, by decide⟩

/-- C5 (counterexample): at a branch, a string request does not fail with
`InvalidNestedValues` (it is forwarded to the self-describing path, which
answers with a map visit), while the primitive request does. -/
theorem c5_counterexample :
    deserialize_str (Value.Map [("a", Value.Simple "1")])
      ≠ Except.error EnvDeserializationError.InvalidNestedValues ∧
    deserialize_bool (Value.Map [("a", Value.Simple "1")])
      = Except.error EnvDeserializationError.InvalidNestedValues :=
  ⟨by decide, rfl⟩

/-- C5 (amended): string, bytes, char, and identifier requests are forwarded
to `deserialize_any`: at a leaf they delegate to a string-based decoder with
the raw value, and at a branch they are handled as a map request (handing the
children to the visitor) rather than failing with `InvalidNestedValues` as a
primitive request does. -/
theorem c5_forward_to_any (s : String) (cs : List (String × Value)) :
    deserialize_str (Value.Simple s) = Except.ok (Visit.vString s) ∧
    deserialize_string (Value.Simple s) = Except.ok (Visit.vString s) ∧
    deserialize_bytes (Value.Simple s) = Except.ok (Visit.vString s) ∧
    deserialize_char (Value.Simple s) = Except.ok (Visit.vString s) ∧
    deserialize_identifier (Value.Simple s) = Except.ok (Visit.vString s) ∧
    deserialize_str (Value.Map cs) = Except.ok (Visit.vMap cs) ∧
    deserialize_string (Value.Map cs) = Except.ok (Visit.vMap cs) ∧
    deserialize_bytes (Value.Map cs) = Except.ok (Visit.vMap cs) ∧
    deserialize_char (Value.Map cs) = Except.ok (Visit.vMap cs) ∧
    deserialize_identifier (Value.Map cs) = Except.ok (Visit.vMap cs) ∧
    deserialize_bool (Value.Map cs) = Except.error EnvDeserializationError.InvalidNestedValues :=
  ⟨rfl, rfl, rfl, rfl, rfl, rfl, rfl, rfl, rfl, rfl, rfl⟩

/-- C6 (counterexample): the failure message wraps the raw value in single
quotes, so for the leaf `abc` read as a boolean the message differs from the
claimed template `<value> could not be deserialized due to: <parse error>`. -/
theorem c6_counterexample :
    deserialize_bool (Value.Simple "abc")
      = Except.error (EnvDeserializationError.GenericDeserialization
          "\x27abc\x27 could not be deserialized due to: provided string was not `true` or `false`") ∧
    "\x27abc\x27 could not be deserialized due to: provided string was not `true` or `false`"
      ≠ "abc could not be deserialized due to: provided string was not `true` or `false`" :=
  ⟨rfl, by decide⟩

/-- C6 (amended): a primitive request at a leaf parses the raw string with the
target primitive's grammar; success delegates the parsed value, failure is
`GenericDeserialization` with message
`'<value>' could not be deserialized due to: <parse error>` (value in single
quotes); at a branch the request fails with `InvalidNestedValues`. -/
theorem c6_prim_requests {α : Type} (parse : String → Except String α)
    (inj : α → Visit) (s e s2 : String) (a : α) (cs : List (String × Value))
    (h : parse s = Except.error e) (h2 : parse s2 = Except.ok a) :
    forward_to_deserializer parse inj (Value.Simple s)
      = Except.error (EnvDeserializationError.GenericDeserialization
          ("\x27" ++ s ++ "\x27 could not be deserialized due to: " ++ e)) ∧
    forward_to_deserializer parse inj (Value.Map cs)
      = Except.error EnvDeserializationError.InvalidNestedValues ∧
    forward_to_deserializer parse inj (Value.Simple s2) = Except.ok (inj a) :=
  ⟨by simp [forward_to_deserializer, h], rfl, by simp [forward_to_deserializer, h2]⟩

/-- C6 (witness): `c6_prim_requests` applied to the boolean grammar at the
failing leaf `abc` and succeeding leaf `true`. -/
theorem c6_witness :
    parse_bool "abc" = Except.error "provided string was not `true` or `false`" ∧
    parse_bool "true" = Except.ok true ∧
    (forward_to_deserializer parse_bool Visit.vBool (Value.Simple "abc")
      = Except.error (EnvDeserializationError.GenericDeserialization
          ("\x27" ++ "abc" ++ "\x27 could not be deserialized due to: "
            ++ "provided string was not `true` or `false`")) ∧
    forward_to_deserializer parse_bool Visit.vBool (Value.Map [])
      = Except.error EnvDeserializationError.InvalidNestedValues ∧
    forward_to_deserializer parse_bool Visit.vBool (Value.Simple "true")
      = Except.ok (Visit.vBool true)) :=
  ⟨rfl, rfl, c6_prim_requests parse_bool Visit.vBool "abc"
    "provided string was not `true` or `false`" "true" true [] rfl rfl⟩

/-- C9: the sorting token of a key whose leading digit run overflows 64-bit
`usize` (here `2^64`) has numeric component `none` even though the key starts
with a digit, contradicting the absent-iff-no-leading-digit claim (and the
source's own comment); on non-overflowing keys the token is the parsed leading
run and the untouched suffix. -/
theorem c9_overflow_token :
    sort_token "18446744073709551616" = (none, "") ∧
    sort_token "1b" = (some 1, "b") ∧
    sort_token "b" = (none, "b") ∧
    sort_token "0" = (some 0, "") :=
  ⟨rfl, rfl, rfl, rfl⟩

/-- Case-insensitive `maybe_coerce_case` replaces each key by the first
expected name matching it under ASCII case-insensitive equality, keeping
unmatched keys. -/
theorem maybe_coerce_case_insensitive (pfx : Option String) (sep : String)
    (ord : Bool) (fields : List String) (cs : List (String × Value)) :
    maybe_coerce_case ⟨pfx, false, sep, ord⟩ cs fields
      = cs.map fun kv => ((fields.find? fun f => eqIgnoreAsciiCase f kv.1).getD kv.1, kv.2) := by
  unfold maybe_coerce_case
  refine List.map_congr_left fun kv _ => ?_
  cases h : fields.find? fun f => eqIgnoreAsciiCase f kv.1 <;> simp [h]

/-- Case-sensitive `maybe_coerce_case` is the identity. -/
theorem maybe_coerce_case_sensitive (pfx : Option String) (sep : String)
    (ord : Bool) (fields : List String) (cs : List (String × Value)) :
    maybe_coerce_case ⟨pfx, true, sep, ord⟩ cs fields = cs := by
  simp [maybe_coerce_case]

/-- C7: struct and enum requests coerce each branch key to the first expected
name matching it ASCII case-insensitively when case-sensitivity is off, leave
unmatched keys unchanged, pass all keys through unchanged when
case-sensitivity is on, and map requests never coerce keys. -/
theorem c7_case_coercion (pfx : Option String) (sep : String) (ord : Bool)
    (fields : List String) (cs : List (String × Value)) :
    deserialize_struct ⟨pfx, false, sep, ord⟩ fields (Value.Map cs)
      = Except.ok (Visit.vMap (cs.map fun kv =>
          ((fields.find? fun f => eqIgnoreAsciiCase f kv.1).getD kv.1, kv.2))) ∧
    deserialize_struct ⟨pfx, true, sep, ord⟩ fields (Value.Map cs)
      = Except.ok (Visit.vMap cs) ∧
    deserialize_enum ⟨pfx, false, sep, ord⟩ fields (Value.Map cs)
      = Except.ok (Visit.vEnumMap (cs.map fun kv =>
          ((fields.find? fun f => eqIgnoreAsciiCase f kv.1).getD kv.1, kv.2))) ∧
    deserialize_enum ⟨pfx, true, sep, ord⟩ fields (Value.Map cs)
      = Except.ok (Visit.vEnumMap cs) ∧
    deserialize_map (Value.Map cs) = Except.ok (Visit.vMap cs) := by
  refine ⟨?_, ?_, ?_, ?_, rfl⟩ <;>
    simp [deserialize_struct, deserialize_enum, deserialize_map,
      maybe_coerce_case_insensitive, maybe_coerce_case_sensitive]

/-- C8: in case-insensitive mode every key is ASCII-lowercased before prefix
stripping and before reaching the tree builder; the configured prefix is
lowercased for the comparison; with a prefix configured, pairs whose
(lowercased) key does not start with it are discarded, and surviving pairs
keep the remainder after the prefix. -/
theorem c8_key_normalization (p sep : String) (ord : Bool)
    (pairs : List (String × String)) :
    build_pairs ⟨some p, false, sep, ord⟩ pairs
      = pairs.filterMap (fun kv =>
          if (asciiLowercase p).data.isPrefixOf (asciiLowercase kv.1).data then
            some (String.mk ((asciiLowercase kv.1).data.drop (asciiLowercase p).data.length),
              Value.Simple kv.2)
          else none) ∧
    build_pairs ⟨none, false, sep, ord⟩ pairs
      = pairs.map fun kv => (asciiLowercase kv.1, Value.Simple kv.2) := by
  constructor
  · unfold build_pairs
    refine List.filterMap_congr fun kv _ => ?_
    by_cases h : (asciiLowercase p).data.isPrefixOf (asciiLowercase kv.1).data <;>
      simp [dropPre, h]
  · unfold build_pairs
    rw [show (pairs.map fun kv => (asciiLowercase kv.1, Value.Simple kv.2))
        = pairs.filterMap fun kv => some (asciiLowercase kv.1, Value.Simple kv.2) from
      (List.filterMap_eq_map _).symm ▸ rfl]
    exact List.filterMap_congr fun kv _ => rfl

/-! ### Branch-key uniqueness (C4) -/

/-- `lookupFirst` misses exactly the keys absent from the entry list. -/
theorem lookupFirst_none_iff (cs : List (String × Value)) (k : String) :
    lookupFirst cs k = none ↔ k ∉ cs.map Prod.fst := by
  induction cs with
  | nil => simp [lookupFirst]
  | cons kv rest ih =>
    obtain ⟨k2, v⟩ := kv
    by_cases h : k2 = k
    · subst h; simp [lookupFirst]
    · rw [List.map_cons,
        show lookupFirst ((k2, v) :: rest) k = lookupFirst rest k from by
          simp [lookupFirst, h],
        ih]
      simp [List.mem_cons, show ¬ k = k2 from fun hh => h hh.symm]

/-- A successful `lookupFirst` returns an entry of the list. -/
theorem lookupFirst_mem (cs : List (String × Value)) (k : String) (c : Value) :
    lookupFirst cs k = some c → (k, c) ∈ cs := by
  induction cs with
  | nil => simp [lookupFirst]
  | cons kv rest ih =>
    obtain ⟨k2, v⟩ := kv
    by_cases h : k2 = k
    · subst h
      simp only [lookupFirst, if_pos rfl]
      intro h2
      injection h2 with h3
      subst h3
      exact List.mem_cons_self _ _
    · simp only [lookupFirst, if_neg h]
      intro h2
      exact List.mem_cons_of_mem _ (ih h2)

/-- `setFirst` does not change the key list. -/
theorem setFirst_keys (cs : List (String × Value)) (k : String) (nv : Value) :
    (setFirst cs k nv).map Prod.fst = cs.map Prod.fst := by
  induction cs with
  | nil => rfl
  | cons kv rest ih =>
    obtain ⟨k2, v⟩ := kv
    by_cases h : k2 = k <;> simp [setFirst, h, ih]

/-- Every entry of `setFirst cs k nv` is an original entry or carries the new
value. -/
theorem mem_setFirst (cs : List (String × Value)) (k : String) (nv : Value) :
    ∀ e ∈ setFirst cs k nv, e ∈ cs ∨ e.2 = nv := by
  induction cs with
  | nil => simp [setFirst]
  | cons kv rest ih =>
    obtain ⟨k2, v⟩ := kv
    by_cases h : k2 = k
    · intro e he
      simp only [setFirst, if_pos h] at he
      rcases List.mem_cons.mp he with rfl | he2
      · right; rfl
      · left; exact List.mem_cons_of_mem _ he2
    · intro e he
      simp only [setFirst, if_neg h] at he
      rcases List.mem_cons.mp he with rfl | he2
      · left; exact List.mem_cons_self _ _
      · rcases ih e he2 with h1 | h2
        · left; exact List.mem_cons_of_mem _ h1
        · right; exact h2

/-- Lookup after `setFirst`: the updated key reads the new value when it was
present, every other key is untouched. -/
theorem lookupFirst_setFirst (cs : List (String × Value)) (k : String)
    (nv : Value) (k2 : String) :
    lookupFirst (setFirst cs k nv) k2
      = if k2 = k then
          (match lookupFirst cs k with
            | some _ => some nv
            | none => none)
        else lookupFirst cs k2 := by
  induction cs with
  | nil => by_cases h : k2 = k <;> simp [setFirst, lookupFirst, h]
  | cons kv rest ih =>
    obtain ⟨k3, v⟩ := kv
    by_cases h3 : k3 = k
    · subst h3
      by_cases h2 : k2 = k3
      · subst h2
        simp [setFirst, lookupFirst]
      · simp [setFirst, lookupFirst, h2, Ne.symm h2]
    · by_cases h2 : k2 = k3
      · subst h2
        simp [setFirst, lookupFirst, h3]
      · simp [setFirst, lookupFirst, h3, h2, Ne.symm h2, ih]

/-- Lookup in an appended list prefers the left part. -/
theorem lookupFirst_append (cs ds : List (String × Value)) (k : String) :
    lookupFirst (cs ++ ds) k
      = match lookupFirst cs k with
        | some c => some c
        | none => lookupFirst ds k := by
  induction cs with
  | nil => simp [lookupFirst]
  | cons kv rest ih =>
    obtain ⟨k2, v⟩ := kv
    by_cases h : k2 = k <;> simp [lookupFirst, h, ih]

/-- The empty branch has no nodes below the root. -/
theorem nodeAt_empty_map (q : List String) (hq : q ≠ []) :
    nodeAt (Value.Map []) q = none := by
  cases q with
  | nil => exact absurd rfl hq
  | cons a b => simp [nodeAt, lookupFirst]

/-- `take` always yields a prefix. -/
theorem takeIsPre (i : Nat) (l : List String) : l.take i <+: l :=
  ⟨l.drop i, List.take_append_drop i l⟩

/-- Inserting a leaf at `path` creates nodes only along `path`: any node
present afterwards was already present, or sits at a prefix of `path`. -/
theorem insert_at_nodes :
    ∀ (path : List String) (cs : List (String × Value)) (v : String) (t2 : Value)
      (q : List String),
      Value.insert_at (Value.Map cs) path (Value.Simple v) = some (Except.ok t2) →
      (nodeAt t2 q).isSome → (nodeAt (Value.Map cs) q).isSome ∨ q <+: path := by
  intro path
  induction path with
  | nil => intro cs v t2 q h; simp [Value.insert_at] at h
  | cons p0 rest ih =>
    intro cs v t2 q h hq
    simp only [Value.insert_at] at h
    split at h
    · simp at h
    · rename_i gcs heq
      split at h
      · rename_i hr
        split at h
        · rename_i child hrec
          injection h with h2
          injection h2 with h3
          subst h3
          cases q with
          | nil => left; simp [nodeAt]
          | cons q0 qr =>
            by_cases hq0 : q0 = p0
            · subst hq0
              have hl2 : lookupFirst (setFirst cs q0 child) q0 = some child := by
                rw [lookupFirst_setFirst]
                simp [heq]
              rw [show nodeAt (Value.Map (setFirst cs q0 child)) (q0 :: qr)
                  = nodeAt child qr from by simp [nodeAt, hl2]] at hq
              rcases ih gcs v child qr hrec hq with hL | hR
              · left
                rw [show nodeAt (Value.Map cs) (q0 :: qr) = nodeAt (Value.Map gcs) qr
                  from by simp [nodeAt, heq]]
                exact hL
              · right
                obtain ⟨tl, htl⟩ := hR
                exact ⟨tl, by rw [List.cons_append, htl]⟩
            · left
              rw [show nodeAt (Value.Map (setFirst cs p0 child)) (q0 :: qr)
                  = nodeAt (Value.Map cs) (q0 :: qr) from by
                simp only [nodeAt, lookupFirst_setFirst, if_neg hq0]] at hq
              exact hq
        · simp at h
        · exact Option.noConfusion h
      · rename_i hr
        split at h
        · exact Option.noConfusion h
        · rename_i r0 rr
          injection h with h2
          injection h2 with h3
          subst h3
          cases q with
          | nil => left; simp [nodeAt]
          | cons q0 qr =>
            by_cases hq0 : q0 = p0
            · subst hq0
              have hl2 : lookupFirst
                  (setFirst cs q0 (Value.Map (gcs ++ [(r0, Value.Simple v)]))) q0
                  = some (Value.Map (gcs ++ [(r0, Value.Simple v)])) := by
                rw [lookupFirst_setFirst]
                simp [heq]
              rw [show nodeAt (Value.Map
                    (setFirst cs q0 (Value.Map (gcs ++ [(r0, Value.Simple v)])))) (q0 :: qr)
                  = nodeAt (Value.Map (gcs ++ [(r0, Value.Simple v)])) qr from by
                simp [nodeAt, hl2]] at hq
              cases qr with
              | nil => left; simp [nodeAt, heq]
              | cons q1 qs =>
                cases hg : lookupFirst gcs q1 with
                | some c =>
                  have hl4 : lookupFirst (gcs ++ [(r0, Value.Simple v)]) q1 = some c := by
                    rw [lookupFirst_append, hg]
                  rw [show nodeAt (Value.Map (gcs ++ [(r0, Value.Simple v)])) (q1 :: qs)
                      = nodeAt c qs from by simp [nodeAt, hl4]] at hq
                  left
                  rw [show nodeAt (Value.Map cs) (q0 :: q1 :: qs) = nodeAt c qs from by
                    simp [nodeAt, heq, hg]]
                  exact hq
                | none =>
                  by_cases hq1 : r0 = q1
                  · subst hq1
                    have hl4 : lookupFirst (gcs ++ [(r0, Value.Simple v)]) r0
                        = some (Value.Simple v) := by
                      rw [lookupFirst_append, hg]
                      simp [lookupFirst]
                    rw [show nodeAt (Value.Map (gcs ++ [(r0, Value.Simple v)])) (r0 :: qs)
                        = nodeAt (Value.Simple v) qs from by simp [nodeAt, hl4]] at hq
                    cases qs with
                    | nil => right; exact ⟨rr, rfl⟩
                    | cons a b => simp [nodeAt] at hq
                  · have hl4 : lookupFirst (gcs ++ [(r0, Value.Simple v)]) q1 = none := by
                      rw [lookupFirst_append, hg]
                      simp [lookupFirst, hq1]
                    rw [show nodeAt (Value.Map (gcs ++ [(r0, Value.Simple v)])) (q1 :: qs)
                        = none from by simp [nodeAt, hl4]] at hq
                    simp at hq
            · left
              rw [show nodeAt (Value.Map
                    (setFirst cs p0 (Value.Map (gcs ++ [(r0, Value.Simple v)])))) (q0 :: qr)
                  = nodeAt (Value.Map cs) (q0 :: qr) from by
                simp only [nodeAt, lookupFirst_setFirst, if_neg hq0]] at hq
              exact hq
    · rename_i heq
      split at h
      · rename_i hr
        split at h
        · rename_i child hrec
          injection h with h2
          injection h2 with h3
          subst h3
          cases q with
          | nil => left; simp [nodeAt]
          | cons q0 qr =>
            by_cases hq0 : q0 = p0
            · subst hq0
              have hl2 : lookupFirst (cs ++ [(q0, child)]) q0 = some child := by
                rw [lookupFirst_append, heq]
                simp [lookupFirst]
              rw [show nodeAt (Value.Map (cs ++ [(q0, child)])) (q0 :: qr)
                  = nodeAt child qr from by simp [nodeAt, hl2]] at hq
              rcases ih [] v child qr hrec hq with hL | hR
              · cases qr with
                | nil => right; exact ⟨rest, rfl⟩
                | cons q1 qs => rw [nodeAt_empty_map _ (by simp)] at hL; simp at hL
              · right
                obtain ⟨tl, htl⟩ := hR
                exact ⟨tl, by rw [List.cons_append, htl]⟩
            · left
              have hl3 : lookupFirst (cs ++ [(p0, child)]) q0 = lookupFirst cs q0 := by
                rw [lookupFirst_append]
                cases h4 : lookupFirst cs q0 with
                | some c => rfl
                | none => simp [lookupFirst, show ¬ p0 = q0 from fun hh => hq0 hh.symm]
              rw [show nodeAt (Value.Map (cs ++ [(p0, child)])) (q0 :: qr)
                  = nodeAt (Value.Map cs) (q0 :: qr) from by simp only [nodeAt, hl3]] at hq
              exact hq
        · simp at h
        · exact Option.noConfusion h
      · rename_i hr
        split at h
        · exact Option.noConfusion h
        · rename_i r0 rr
          injection h with h2
          injection h2 with h3
          subst h3
          cases q with
          | nil => left; simp [nodeAt]
          | cons q0 qr =>
            by_cases hq0 : q0 = p0
            · subst hq0
              have hl2 : lookupFirst (cs ++ [(q0, Value.Map [(r0, Value.Simple v)])]) q0
                  = some (Value.Map [(r0, Value.Simple v)]) := by
                rw [lookupFirst_append, heq]
                simp [lookupFirst]
              rw [show nodeAt (Value.Map
                    (cs ++ [(q0, Value.Map [(r0, Value.Simple v)])])) (q0 :: qr)
                  = nodeAt (Value.Map [(r0, Value.Simple v)]) qr from by
                simp [nodeAt, hl2]] at hq
              cases qr with
              | nil => right; exact ⟨r0 :: rr, rfl⟩
              | cons q1 qs =>
                by_cases hq1 : r0 = q1
                · subst hq1
                  rw [show nodeAt (Value.Map [(r0, Value.Simple v)]) (r0 :: qs)
                      = nodeAt (Value.Simple v) qs from by simp [nodeAt, lookupFirst]] at hq
                  cases qs with
                  | nil => right; exact ⟨rr, rfl⟩
                  | cons a b => simp [nodeAt] at hq
                · rw [show nodeAt (Value.Map [(r0, Value.Simple v)]) (q1 :: qs) = none
                    from by simp [nodeAt, lookupFirst, hq1]] at hq
                  simp at hq
            · left
              have hl3 : lookupFirst (cs ++ [(p0, Value.Map [(r0, Value.Simple v)])]) q0
                  = lookupFirst cs q0 := by
                rw [lookupFirst_append]
                cases h4 : lookupFirst cs q0 with
                | some c => rfl
                | none => simp [lookupFirst, show ¬ p0 = q0 from fun hh => hq0 hh.symm]
              rw [show nodeAt (Value.Map
                    (cs ++ [(p0, Value.Map [(r0, Value.Simple v)])])) (q0 :: qr)
                  = nodeAt (Value.Map cs) (q0 :: qr) from by simp only [nodeAt, hl3]] at hq
              exact hq

/-- Inserting a leaf at `path` creates leaves only at `path` itself: any leaf
present afterwards was already present, or sits exactly at `path`. -/
theorem insert_at_simples :
    ∀ (path : List String) (cs : List (String × Value)) (v : String) (t2 : Value)
      (q : List String) (x : String),
      Value.insert_at (Value.Map cs) path (Value.Simple v) = some (Except.ok t2) →
      nodeAt t2 q = some (Value.Simple x) →
      nodeAt (Value.Map cs) q = some (Value.Simple x) ∨ q = path := by
  intro path
  induction path with
  | nil => intro cs v t2 q x h; simp [Value.insert_at] at h
  | cons p0 rest ih =>
    intro cs v t2 q x h hq
    simp only [Value.insert_at] at h
    split at h
    · simp at h
    · rename_i gcs heq
      split at h
      · rename_i hr
        split at h
        · rename_i child hrec
          injection h with h2
          injection h2 with h3
          subst h3
          cases q with
          | nil => simp [nodeAt] at hq
          | cons q0 qr =>
            by_cases hq0 : q0 = p0
            · subst hq0
              have hl2 : lookupFirst (setFirst cs q0 child) q0 = some child := by
                rw [lookupFirst_setFirst]
                simp [heq]
              rw [show nodeAt (Value.Map (setFirst cs q0 child)) (q0 :: qr)
                  = nodeAt child qr from by simp [nodeAt, hl2]] at hq
              rcases ih gcs v child qr x hrec hq with hL | hR
              · left
                rw [show nodeAt (Value.Map cs) (q0 :: qr) = nodeAt (Value.Map gcs) qr
                  from by simp [nodeAt, heq]]
                exact hL
              · right
                rw [hR]
            · left
              rw [show nodeAt (Value.Map (setFirst cs p0 child)) (q0 :: qr)
                  = nodeAt (Value.Map cs) (q0 :: qr) from by
                simp only [nodeAt, lookupFirst_setFirst, if_neg hq0]] at hq
              exact hq
        · simp at h
        · exact Option.noConfusion h
      · rename_i hr
        split at h
        · exact Option.noConfusion h
        · rename_i r0 rr
          have hrr : rr = [] := by
            cases rr with
            | nil => rfl
            | cons a b => exact absurd (by simp [List.length_cons]) hr
          subst hrr
          injection h with h2
          injection h2 with h3
          subst h3
          cases q with
          | nil => simp [nodeAt] at hq
          | cons q0 qr =>
            by_cases hq0 : q0 = p0
            · subst hq0
              have hl2 : lookupFirst
                  (setFirst cs q0 (Value.Map (gcs ++ [(r0, Value.Simple v)]))) q0
                  = some (Value.Map (gcs ++ [(r0, Value.Simple v)])) := by
                rw [lookupFirst_setFirst]
                simp [heq]
              rw [show nodeAt (Value.Map
                    (setFirst cs q0 (Value.Map (gcs ++ [(r0, Value.Simple v)])))) (q0 :: qr)
                  = nodeAt (Value.Map (gcs ++ [(r0, Value.Simple v)])) qr from by
                simp [nodeAt, hl2]] at hq
              cases qr with
              | nil => simp [nodeAt] at hq
              | cons q1 qs =>
                cases hg : lookupFirst gcs q1 with
                | some c =>
                  have hl4 : lookupFirst (gcs ++ [(r0, Value.Simple v)]) q1 = some c := by
                    rw [lookupFirst_append, hg]
                  rw [show nodeAt (Value.Map (gcs ++ [(r0, Value.Simple v)])) (q1 :: qs)
                      = nodeAt c qs from by simp [nodeAt, hl4]] at hq
                  left
                  rw [show nodeAt (Value.Map cs) (q0 :: q1 :: qs) = nodeAt c qs from by
                    simp [nodeAt, heq, hg]]
                  exact hq
                | none =>
                  by_cases hq1 : r0 = q1
                  · subst hq1
                    have hl4 : lookupFirst (gcs ++ [(r0, Value.Simple v)]) r0
                        = some (Value.Simple v) := by
                      rw [lookupFirst_append, hg]
                      simp [lookupFirst]
                    rw [show nodeAt (Value.Map (gcs ++ [(r0, Value.Simple v)])) (r0 :: qs)
                        = nodeAt (Value.Simple v) qs from by simp [nodeAt, hl4]] at hq
                    cases qs with
                    | nil => right; rfl
                    | cons a b => simp [nodeAt] at hq
                  · have hl4 : lookupFirst (gcs ++ [(r0, Value.Simple v)]) q1 = none := by
                      rw [lookupFirst_append, hg]
                      simp [lookupFirst, hq1]
                    rw [show nodeAt (Value.Map (gcs ++ [(r0, Value.Simple v)])) (q1 :: qs)
                        = none from by simp [nodeAt, hl4]] at hq
                    simp at hq
            · left
              rw [show nodeAt (Value.Map
                    (setFirst cs p0 (Value.Map (gcs ++ [(r0, Value.Simple v)])))) (q0 :: qr)
                  = nodeAt (Value.Map cs) (q0 :: qr) from by
                simp only [nodeAt, lookupFirst_setFirst, if_neg hq0]] at hq
              exact hq
    · rename_i heq
      split at h
      · rename_i hr
        split at h
        · rename_i child hrec
          injection h with h2
          injection h2 with h3
          subst h3
          cases q with
          | nil => simp [nodeAt] at hq
          | cons q0 qr =>
            by_cases hq0 : q0 = p0
            · subst hq0
              have hl2 : lookupFirst (cs ++ [(q0, child)]) q0 = some child := by
                rw [lookupFirst_append, heq]
                simp [lookupFirst]
              rw [show nodeAt (Value.Map (cs ++ [(q0, child)])) (q0 :: qr)
                  = nodeAt child qr from by simp [nodeAt, hl2]] at hq
              rcases ih [] v child qr x hrec hq with hL | hR
              · cases qr with
                | nil => simp [nodeAt] at hL
                | cons q1 qs => rw [nodeAt_empty_map _ (by simp)] at hL; simp at hL
              · right
                rw [hR]
            · left
              have hl3 : lookupFirst (cs ++ [(p0, child)]) q0 = lookupFirst cs q0 := by
                rw [lookupFirst_append]
                cases h4 : lookupFirst cs q0 with
                | some c => rfl
                | none => simp [lookupFirst, show ¬ p0 = q0 from fun hh => hq0 hh.symm]
              rw [show nodeAt (Value.Map (cs ++ [(p0, child)])) (q0 :: qr)
                  = nodeAt (Value.Map cs) (q0 :: qr) from by simp only [nodeAt, hl3]] at hq
              exact hq
        · simp at h
        · exact Option.noConfusion h
      · rename_i hr
        split at h
        · exact Option.noConfusion h
        · rename_i r0 rr
          have hrr : rr = [] := by
            cases rr with
            | nil => rfl
            | cons a b => exact absurd (by simp [List.length_cons]) hr
          subst hrr
          injection h with h2
          injection h2 with h3
          subst h3
          cases q with
          | nil => simp [nodeAt] at hq
          | cons q0 qr =>
            by_cases hq0 : q0 = p0
            · subst hq0
              have hl2 : lookupFirst (cs ++ [(q0, Value.Map [(r0, Value.Simple v)])]) q0
                  = some (Value.Map [(r0, Value.Simple v)]) := by
                rw [lookupFirst_append, heq]
                simp [lookupFirst]
              rw [show nodeAt (Value.Map
                    (cs ++ [(q0, Value.Map [(r0, Value.Simple v)])])) (q0 :: qr)
                  = nodeAt (Value.Map [(r0, Value.Simple v)]) qr from by
                simp [nodeAt, hl2]] at hq
              cases qr with
              | nil => simp [nodeAt] at hq
              | cons q1 qs =>
                by_cases hq1 : r0 = q1
                · subst hq1
                  rw [show nodeAt (Value.Map [(r0, Value.Simple v)]) (r0 :: qs)
                      = nodeAt (Value.Simple v) qs from by simp [nodeAt, lookupFirst]] at hq
                  cases qs with
                  | nil => right; rfl
                  | cons a b => simp [nodeAt] at hq
                · rw [show nodeAt (Value.Map [(r0, Value.Simple v)]) (q1 :: qs) = none
                    from by simp [nodeAt, lookupFirst, hq1]] at hq
                  simp at hq
            · left
              have hl3 : lookupFirst (cs ++ [(p0, Value.Map [(r0, Value.Simple v)])]) q0
                  = lookupFirst cs q0 := by
                rw [lookupFirst_append]
                cases h4 : lookupFirst cs q0 with
                | some c => rfl
                | none => simp [lookupFirst, show ¬ p0 = q0 from fun hh => hq0 hh.symm]
              rw [show nodeAt (Value.Map
                    (cs ++ [(p0, Value.Map [(r0, Value.Simple v)])])) (q0 :: qr)
                  = nodeAt (Value.Map cs) (q0 :: qr) from by simp only [nodeAt, hl3]] at hq
              exact hq

/-- Inserting a leaf at a path whose node does not yet exist preserves
branch-key uniqueness: intermediate segments find-or-create, and the final
append introduces a key that was absent from its parent. -/
theorem insert_at_unique :
    ∀ (path : List String) (cs : List (String × Value)) (v : String) (t2 : Value),
      AllUnique (Value.Map cs) →
      nodeAt (Value.Map cs) path = none →
      Value.insert_at (Value.Map cs) path (Value.Simple v) = some (Except.ok t2) →
      AllUnique t2 := by
  intro path
  induction path with
  | nil => intro cs v t2 _ _ h; simp [Value.insert_at] at h
  | cons p0 rest ih =>
    intro cs v t2 hu hnone h
    obtain ⟨hnd, hch⟩ : (cs.map Prod.fst).Nodup ∧ ∀ kv ∈ cs, AllUnique kv.2 := by
      cases hu with | map _ h1 h2 => exact ⟨h1, h2⟩
    simp only [Value.insert_at] at h
    split at h
    · simp at h
    · rename_i gcs heq
      have hchild : AllUnique (Value.Map gcs) :=
        hch (p0, Value.Map gcs) (lookupFirst_mem _ _ _ heq)
      have hnone2 : nodeAt (Value.Map gcs) rest = none := by
        rw [show nodeAt (Value.Map cs) (p0 :: rest) = nodeAt (Value.Map gcs) rest from by
          simp [nodeAt, heq]] at hnone
        exact hnone
      split at h
      · rename_i hr
        split at h
        · rename_i child hrec
          injection h with h2
          injection h2 with h3
          subst h3
          have hcu : AllUnique child := ih gcs v child hchild hnone2 hrec
          refine AllUnique.map _ ?_ ?_
          · rw [setFirst_keys]; exact hnd
          · intro kv hkv
            rcases mem_setFirst _ _ _ kv hkv with hm | he
            · exact hch kv hm
            · rw [he]; exact hcu
        · simp at h
        · exact Option.noConfusion h
      · rename_i hr
        split at h
        · exact Option.noConfusion h
        · rename_i r0 rr
          have hrr : rr = [] := by
            cases rr with
            | nil => rfl
            | cons a b => exact absurd (by simp [List.length_cons]) hr
          subst hrr
          injection h with h2
          injection h2 with h3
          subst h3
          obtain ⟨hnd2, hch2⟩ : (gcs.map Prod.fst).Nodup ∧ ∀ kv ∈ gcs, AllUnique kv.2 := by
            cases hchild with | map _ h1 h2 => exact ⟨h1, h2⟩
          have hr0 : lookupFirst gcs r0 = none := by
            cases h5 : lookupFirst gcs r0 with
            | none => rfl
            | some c =>
              rw [show nodeAt (Value.Map gcs) [r0] = nodeAt c [] from by
                simp [nodeAt, h5]] at hnone2
              simp [nodeAt] at hnone2
          have hinner : AllUnique (Value.Map (gcs ++ [(r0, Value.Simple v)])) := by
            refine AllUnique.map _ ?_ ?_
            · rw [List.map_append]
              refine List.Nodup.append hnd2 (by simp) ?_
              intro a ha hb
              simp at hb
              subst hb
              exact (lookupFirst_none_iff _ _ |>.mp hr0) ha
            · intro kv hkv
              rcases List.mem_append.mp hkv with hm | hm
              · exact hch2 kv hm
              · have hkv2 : kv = (r0, Value.Simple v) := by simpa using hm
                rw [hkv2]
                exact AllUnique.simple v
          refine AllUnique.map _ ?_ ?_
          · rw [setFirst_keys]; exact hnd
          · intro kv hkv
            rcases mem_setFirst _ _ _ kv hkv with hm | he
            · exact hch kv hm
            · rw [he]; exact hinner
    · rename_i heq
      split at h
      · rename_i hr
        split at h
        · rename_i child hrec
          injection h with h2
          injection h2 with h3
          subst h3
          have hcu : AllUnique child := by
            refine ih [] v child (AllUnique.map [] (by simp) (by simp)) ?_ hrec
            cases rest with
            | nil => simp at hr
            | cons a b => exact nodeAt_empty_map _ (by simp)
          refine AllUnique.map _ ?_ ?_
          · rw [List.map_append]
            refine List.Nodup.append hnd (by simp) ?_
            intro a ha hb
            simp at hb
            subst hb
            exact (lookupFirst_none_iff _ _ |>.mp heq) ha
          · intro kv hkv
            rcases List.mem_append.mp hkv with hm | hm
            · exact hch kv hm
            · have hkv2 : kv = (p0, child) := by simpa using hm
              rw [hkv2]
              exact hcu
        · simp at h
        · exact Option.noConfusion h
      · rename_i hr
        split at h
        · exact Option.noConfusion h
        · rename_i r0 rr
          injection h with h2
          injection h2 with h3
          subst h3
          refine AllUnique.map _ ?_ ?_
          · rw [List.map_append]
            refine List.Nodup.append hnd (by simp) ?_
            intro a ha hb
            simp at hb
            subst hb
            exact (lookupFirst_none_iff _ _ |>.mp heq) ha
          · intro kv hkv
            rcases List.mem_append.mp hkv with hm | hm
            · exact hch kv hm
            · have hkv2 : kv = (p0, Value.Map [(r0, Value.Simple v)]) := by simpa using hm
              rw [hkv2]
              refine AllUnique.map _ (by simp) ?_
              intro kv2 hkv2b
              have hkv3 : kv2 = (r0, Value.Simple v) := by simpa using hkv2b
              rw [hkv3]
              exact AllUnique.simple v

/-- When no strict nonempty prefix of the (two-or-more-segment) path resolves
to a leaf, `Value::insert_at` succeeds. -/
theorem insert_at_ok_exists :
    ∀ (path : List String) (cs : List (String × Value)) (v : String),
      2 ≤ path.length →
      (∀ i x, 0 < i → i < path.length →
        nodeAt (Value.Map cs) (path.take i) ≠ some (Value.Simple x)) →
      ∃ t2, Value.insert_at (Value.Map cs) path (Value.Simple v)
        = some (Except.ok t2) := by
  intro path
  induction path with
  | nil => intro cs v h; simp at h
  | cons p0 rest ih =>
    intro cs v hlen hsafe
    have hrestlen : 1 ≤ rest.length := by
      simp [List.length_cons] at hlen; omega
    cases hlk : lookupFirst cs p0 with
    | some c =>
      cases c with
      | Simple s =>
        exact absurd (by
            show nodeAt (Value.Map cs) ((p0 :: rest).take 1) = some (Value.Simple s)
            simp [nodeAt, hlk])
          (hsafe 1 s (by omega) (by simp [List.length_cons]; omega))
      | Map gcs =>
        by_cases hr : 1 < rest.length
        · have hsafe2 : ∀ i x, 0 < i → i < rest.length →
              nodeAt (Value.Map gcs) (rest.take i) ≠ some (Value.Simple x) := by
            intro i x hi hil hcon
            refine hsafe (i + 1) x (by omega) (by simp [List.length_cons]; omega) ?_
            rw [List.take_succ_cons]
            rw [show nodeAt (Value.Map cs) (p0 :: rest.take i)
                = nodeAt (Value.Map gcs) (rest.take i) from by simp [nodeAt, hlk]]
            exact hcon
          obtain ⟨t2, ht2⟩ := ih gcs v (by omega) hsafe2
          refine ⟨Value.Map (setFirst cs p0 t2), ?_⟩
          simp [Value.insert_at, hlk, hr, ht2]
        · obtain ⟨r0, hrest⟩ : ∃ r0, rest = [r0] := by
            cases rest with
            | nil => simp at hrestlen
            | cons a b =>
              cases b with
              | nil => exact ⟨a, rfl⟩
              | cons c2 d => exact absurd (by simp [List.length_cons]) hr
          subst hrest
          refine ⟨Value.Map (setFirst cs p0 (Value.Map (gcs ++ [(r0, Value.Simple v)]))), ?_⟩
          simp [Value.insert_at, hlk]
    | none =>
      by_cases hr : 1 < rest.length
      · have hsafe2 : ∀ i x, 0 < i → i < rest.length →
            nodeAt (Value.Map []) (rest.take i) ≠ some (Value.Simple x) := by
          intro i x hi hil hcon
          cases hti : rest.take i with
          | nil => rw [hti] at hcon; simp [nodeAt] at hcon
          | cons a b =>
            rw [hti, nodeAt_empty_map _ (by simp)] at hcon
            exact Option.noConfusion hcon
        obtain ⟨t2, ht2⟩ := ih [] v (by omega) hsafe2
        refine ⟨Value.Map (cs ++ [(p0, t2)]), ?_⟩
        simp [Value.insert_at, hlk, hr, ht2]
      · obtain ⟨r0, hrest⟩ : ∃ r0, rest = [r0] := by
          cases rest with
          | nil => simp at hrestlen
          | cons a b =>
            cases b with
            | nil => exact ⟨a, rfl⟩
            | cons c2 d => exact absurd (by simp [List.length_cons]) hr
        subst hrest
        refine ⟨Value.Map (cs ++ [(p0, Value.Map [(r0, Value.Simple v)])]), ?_⟩
        simp [Value.insert_at, hlk]

/-- Folding multi-segment, pairwise non-prefix insertions over a uniquely
keyed branch succeeds and preserves branch-key uniqueness. -/
theorem create_tree_go_unique (sep : String) :
    ∀ (pairs : List (String × String)) (cs : List (String × Value)),
      (∀ kv ∈ pairs, 2 ≤ (splitSep sep kv.1).length) →
      ((pairs.map fun kv => splitSep sep kv.1).Pairwise
        fun a b => ¬ a <+: b ∧ ¬ b <+: a) →
      AllUnique (Value.Map cs) →
      (∀ kv ∈ pairs, nodeAt (Value.Map cs) (splitSep sep kv.1) = none) →
      (∀ kv ∈ pairs, ∀ i x, 0 < i → i < (splitSep sep kv.1).length →
        nodeAt (Value.Map cs) ((splitSep sep kv.1).take i) ≠ some (Value.Simple x)) →
      ∃ ds, create_tree_go sep (Value.Map cs)
          (pairs.map fun kv => (kv.1, Value.Simple kv.2)) = some (Except.ok (Value.Map ds))
        ∧ AllUnique (Value.Map ds) := by
  intro pairs
  induction pairs with
  | nil =>
    intro cs _ _ hu _ _
    exact ⟨cs, rfl, hu⟩
  | cons kv rest ih =>
    intro cs hseg hpw hu hnone hsafe
    obtain ⟨key, val⟩ := kv
    have hlen : 2 ≤ (splitSep sep key).length := hseg _ (List.mem_cons_self _ _)
    have hl1 : ¬ (splitSep sep key).length = 1 := by omega
    obtain ⟨t2, ht2⟩ := insert_at_ok_exists (splitSep sep key) cs val hlen
      (by
        intro i x hi hil
        exact hsafe _ (List.mem_cons_self _ _) i x hi hil)
    obtain ⟨ds2, hds2⟩ := insert_at_map_shape _ _ _ _ ht2
    subst hds2
    rw [List.map_cons] at hpw
    obtain ⟨hhead, htail⟩ := List.pairwise_cons.mp hpw
    have hstep : create_tree_go sep (Value.Map cs)
        (((key, val) :: rest).map fun kv => (kv.1, Value.Simple kv.2))
        = create_tree_go sep (Value.Map ds2)
            (rest.map fun kv => (kv.1, Value.Simple kv.2)) := by
      simp [create_tree_go, hl1, ht2]
    rw [hstep]
    refine ih ds2 (fun kv2 hm => hseg kv2 (List.mem_cons_of_mem _ hm)) htail
      (insert_at_unique _ _ _ _ hu (hnone _ (List.mem_cons_self _ _)) ht2) ?_ ?_
    · intro kv2 hm
      by_contra hcon
      rcases insert_at_nodes (splitSep sep key) cs val _ _ ht2
          (Option.ne_none_iff_isSome.mp hcon) with hL | hR
      · rw [hnone kv2 (List.mem_cons_of_mem _ hm)] at hL
        simp at hL
      · exact (hhead _ (List.mem_map_of_mem _ hm)).2 hR
    · intro kv2 hm i x hi hil hcon
      rcases insert_at_simples (splitSep sep key) cs val _ _ x ht2 hcon with hL | hR
      · exact hsafe kv2 (List.mem_cons_of_mem _ hm) i x hi hil hL
      · refine (hhead _ (List.mem_map_of_mem _ hm)).1 ?_
        rw [← hR]
        exact takeIsPre i _

/-- C4 (counterexample): the pair `("a__b", ...)` inserted twice — every key
splits into two segments — produces a Branch `a` with two children both keyed
`b`: the final segment is appended unconditionally, duplicating the key. -/
theorem c4_counterexample :
    create_tree "__" [("a__b", Value.Simple "1"), ("a__b", Value.Simple "2")]
      = some (Except.ok (Value.Map
          [("a", Value.Map [("b", Value.Simple "1"), ("b", Value.Simple "2")])])) ∧
    ¬ AllUnique (Value.Map
        [("a", Value.Map [("b", Value.Simple "1"), ("b", Value.Simple "2")])]) := by
  refine ⟨rfl, ?_⟩
  intro h
  cases h with
  | map _ hnd hch =>
    have h2 := hch ("a", Value.Map [("b", Value.Simple "1"), ("b", Value.Simple "2")])
      (by simp)
    cases h2 with
    | map _ hnd2 _ => simp at hnd2

/-- C4 (amended): if every key splits into at least two segments and no two
keys yield paths where one is a prefix of (or equal to) the other, the built
tree has pairwise-distinct child keys within every Branch.  (Intermediate
segments find-or-create by exact match; only the unconditional final-segment
append can duplicate, and the non-prefix condition rules that out.) -/
theorem c4_unique_keys (sep : String) (pairs : List (String × String))
    (hseg : ∀ kv ∈ pairs, 2 ≤ (splitSep sep kv.1).length)
    (hpf : (pairs.map fun kv => splitSep sep kv.1).Pairwise
      fun a b => ¬ a <+: b ∧ ¬ b <+: a) :
    ∃ t, create_tree sep (pairs.map fun kv => (kv.1, Value.Simple kv.2))
        = some (Except.ok t) ∧ AllUnique t := by
  obtain ⟨ds, h1, h2⟩ := create_tree_go_unique sep pairs [] hseg hpf
    (AllUnique.map [] (by simp) (by simp))
    (by
      intro kv hm
      have h3 := hseg kv hm
      cases hp : splitSep sep kv.1 with
      | nil => rw [hp] at h3; simp at h3
      | cons a b => exact nodeAt_empty_map _ (by simp))
    (by
      intro kv hm i x hi hil hcon
      cases hti : (splitSep sep kv.1).take i with
      | nil => rw [hti] at hcon; simp [nodeAt] at hcon
      | cons a b =>
        rw [hti, nodeAt_empty_map _ (by simp)] at hcon
        exact Option.noConfusion hcon)
  exact ⟨Value.Map ds, h1, h2⟩

/-- C4 (witness): `c4_unique_keys` on three concrete pairs with two- and
three-segment keys and pairwise non-prefix paths. -/
theorem c4_witness :
    (∀ kv ∈ [("a__b", "1"), ("a__c", "2"), ("d__e__f", "3")],
      2 ≤ (splitSep "__" kv.1).length) ∧
    (([("a__b", "1"), ("a__c", "2"), ("d__e__f", "3")].map
        fun kv => splitSep "__" kv.1).Pairwise
      fun a b => ¬ a <+: b ∧ ¬ b <+: a) ∧
    ∃ t, create_tree "__" ([("a__b", "1"), ("a__c", "2"), ("d__e__f", "3")].map
        fun kv => (kv.1, Value.Simple kv.2)) = some (Except.ok t) ∧ AllUnique t :=
  ⟨by decide, by decide,
    c4_unique_keys "__" [("a__b", "1"), ("a__c", "2"), ("d__e__f", "3")]
      (by decide) (by decide)⟩

end Envious
